import Mathlib

/-!
# Verification of the Xynoxa Desktop Client sync engine

A shallow embedding of the synchronization core of the Xynoxa desktop
client (`src-tauri/src/sync.rs`, `src-tauri/src/db.rs`,
`src-tauri/src/api.rs`) together with proofs settling the specified
properties of the engine: cursor monotonicity of the pull loop,
lexicographic push ordering and remote-folder parenting, push-phase
deletion dispatch and group-root restore, pull-phase conflict backup,
the upload size policy and the chunked-upload protocol, move-event
integrity verification, and the watcher-muzzling flag discipline.

Conventions of the embedding:
* Rust `String` paths are Lean `String`s; byte-lexicographic ordering of
  Rust strings is modelled by code-point-lexicographic ordering on the
  underlying character lists (for UTF-8 the two orders coincide).
* The SQLite `files` table (primary key `path`) is a `List FileRecord`
  with `INSERT OR REPLACE` / `DELETE` / `SELECT` modelled as list
  operations keyed by `path`.
* Remote calls and filesystem writes performed by the worker are logged
  into explicit effect lists so that theorems can talk about which
  calls a phase dispatches and in which order.
* The remote server is modelled as always succeeding and handing out
  fresh identifiers `"id0"`, `"id1"`, … in call order; the claims under
  proof only concern the success paths of the code.
-/

namespace Xynoxa

/-! ## Data model (`db.rs`)

`FileRecord` mirrors `db.rs` lines 11-20: one row of the `files` table.
-/

structure FileRecord where
  id : Option String
  path : String
  hash : String
  modified_at : Int
  server_version : Int
  group_folder_id : Option String
  is_group_root : Bool
deriving DecidableEq, Repr

/-- The `files` table: rows keyed by primary key `path`. -/
abbrev Db := List FileRecord

/-- `Database::get_file` (db.rs:102): `SELECT … WHERE path = ?1`. -/
def dbGet (db : Db) (path : String) : Option FileRecord :=
  db.find? (fun r => r.path = path)

/-- `Database::get_file_by_id` (db.rs:125): `SELECT … WHERE id = ?1`. -/
def dbGetById (db : Db) (id : String) : Option FileRecord :=
  db.find? (fun r => r.id = some id)

/-- `Database::insert_or_update` (db.rs:85): `INSERT OR REPLACE` keyed by
the primary key `path`. -/
def dbInsert (r : FileRecord) (db : Db) : Db :=
  r :: db.filter (fun r' => r'.path ≠ r.path)

/-- `Database::delete_file` (db.rs:171): `DELETE FROM files WHERE path = ?1`. -/
def dbDelete (path : String) (db : Db) : Db :=
  db.filter (fun r => r.path ≠ path)

/-! ## C1 — cursor monotonicity of the pull loop

One iteration of the pull loop (sync.rs:280-577) reads the cursor from
the store (sync.rs:281), calls `sync_pull(cursor)`, breaks before any
write when the batch is empty (sync.rs:291-296), and after applying the
batch persists `next_cursor` only when it is strictly greater than the
cursor that was read (sync.rs:570-574).  Event application never writes
the cursor.  `pullIterCursor` is the resulting cursor transition of one
iteration; a batch is abstracted to the pair (events-empty flag,
`next_cursor`).
-/

/-- Cursor update of one pull-loop iteration (sync.rs:281, 291-296,
569-574): on an empty batch nothing is written; otherwise `next` is
stored only when `next > c`. -/
def pullIterCursor (c : Nat) (eventsEmpty : Bool) (next : Nat) : Nat :=
  if eventsEmpty then c
  else if next > c then next else c

/-- The successive stored cursor values over a sequence of pull batches,
starting from stored value `c`. -/
def pullCursorTrace (c : Nat) : List (Bool × Nat) → List Nat
  | [] => [c]
  | b :: bs => c :: pullCursorTrace (pullIterCursor c b.1 b.2) bs

theorem pullIterCursor_le (c : Nat) (e : Bool) (n : Nat) :
    c ≤ pullIterCursor c e n := by
  unfold pullIterCursor
  split
  · exact Nat.le_refl c
  · split
    · omega
    · exact Nat.le_refl c

/-- C1: The persisted cursor is non-decreasing across the process
lifetime.  In each pull iteration the cursor is read from the store
before `pull(cursor)` is called, and a new value is written back only
when the returned `next_cursor` is strictly greater than the value that
was read; hence over every sequence of pull batches the successive
stored cursor values form a `≤`-chain, and every write that changes the
stored value installs exactly the returned `next_cursor`, which is
strictly greater than the value read. -/
theorem cursor_monotone :
    (∀ (c : Nat) (batches : List (Bool × Nat)),
      List.Chain' (· ≤ ·) (pullCursorTrace c batches)) ∧
    (∀ (c : Nat) (e : Bool) (n : Nat),
      pullIterCursor c e n = c ∨ (pullIterCursor c e n = n ∧ c < n)) := by
  constructor
  · intro c batches
    induction batches generalizing c with
    | nil => simp [pullCursorTrace]
    | cons b bs ih =>
      have hstep := pullIterCursor_le c b.1 b.2
      have htail := ih (pullIterCursor c b.1 b.2)
      cases bs with
      | nil =>
        simp [pullCursorTrace] at htail ⊢
        exact hstep
      | cons b' bs' =>
        simp only [pullCursorTrace] at htail ⊢
        exact List.Chain'.cons hstep htail
  · intro c e n
    unfold pullIterCursor
    split
    · exact Or.inl rfl
    · split
      · exact Or.inr ⟨rfl, by omega⟩
      · exact Or.inl rfl

/-! ## Path utilities

The worker handles root-relative, forward-slash separated path strings.
`Path::file_name` and `Path::parent` (as used on such relative paths in
sync.rs:789-822, 952-971) are modelled on the underlying character
list: the last component is everything after the final `'/'`, the
parent is everything before it (`""` for a single-component path, which
is exactly what `parent_str` is in the Rust code for such paths).
-/

/-- `Path::file_name` of a relative slash-separated path. -/
def lastComponent (p : String) : String :=
  String.mk ((p.data.reverse.takeWhile (fun c => c ≠ '/')).reverse)

/-- `Path::parent` of a relative slash-separated path, rendered as the
string the Rust code compares against `""` and `"."`. -/
def parentPath (p : String) : String :=
  String.mk (((p.data.reverse.dropWhile (fun c => c ≠ '/')).drop 1).reverse)

/-! ## Lexicographic path order and `Vec::sort`

`sorted_paths.sort()` (sync.rs:619) sorts `Vec<String>` by Rust's `Ord`
for `String`, i.e. byte-lexicographic order of the UTF-8 encodings; on
valid UTF-8 this coincides with code-point-lexicographic order, which
`charListLe` computes on the character lists.  `sortPaths` is a stable
sort by this order (insertion sort; on duplicate-free key sets — the
keys of the scan `HashMap` — any sort by a total order produces the
same sequence as Rust's `sort`).
-/

def charListLe : List Char → List Char → Bool
  | [], _ => true
  | _ :: _, [] => false
  | a :: as, b :: bs => if a = b then charListLe as bs else decide (a < b)

/-- Rust `String` ordering (`a <= b`). -/
def pathLe (a b : String) : Bool := charListLe a.data b.data

def insertSorted (x : String) : List String → List String
  | [] => [x]
  | y :: ys => if pathLe x y then x :: y :: ys else y :: insertSorted x ys

/-- Model of `Vec::sort` on the scanned path list (sync.rs:618-619). -/
def sortPaths : List String → List String
  | [] => []
  | x :: xs => insertSorted x (sortPaths xs)

/-- Position of the first occurrence of `a` in `l` (the processing
position of path `a` in the push iteration over `l`). -/
def idx (a : String) : List String → Nat
  | [] => 0
  | x :: xs => if x = a then 0 else idx a xs + 1

theorem charListLe_refl (l : List Char) : charListLe l l = true := by
  induction l with
  | nil => rfl
  | cons a as ih => simp [charListLe, ih]

theorem charListLe_total (a b : List Char) :
    charListLe a b = true ∨ charListLe b a = true := by
  induction a generalizing b with
  | nil => exact Or.inl rfl
  | cons x xs ih =>
    cases b with
    | nil => exact Or.inr rfl
    | cons y ys =>
      by_cases hxy : x = y
      · subst hxy
        rcases ih ys with h | h
        · exact Or.inl (by simp [charListLe, h])
        · exact Or.inr (by simp [charListLe, h])
      · rcases lt_trichotomy x y with hlt | heq | hgt
        · exact Or.inl (by simp [charListLe, hxy, hlt])
        · exact absurd heq hxy
        · exact Or.inr (by simp [charListLe, Ne.symm hxy, hgt])

theorem charListLe_trans (a b c : List Char)
    (h1 : charListLe a b = true) (h2 : charListLe b c = true) :
    charListLe a c = true := by
  induction a generalizing b c with
  | nil => rfl
  | cons x xs ih =>
    cases b with
    | nil => simp [charListLe] at h1
    | cons y ys =>
      cases c with
      | nil => simp [charListLe] at h2
      | cons z zs =>
        by_cases hxy : x = y <;> by_cases hyz : y = z
        · subst hxy; subst hyz
          simp only [charListLe, if_pos rfl] at h1 h2 ⊢
          exact ih ys zs h1 h2
        · subst hxy
          simp only [charListLe, if_pos rfl, if_neg hyz] at h2 ⊢
          exact h2
        · subst hyz
          simp only [charListLe, if_pos rfl, if_neg hxy] at h1 ⊢
          exact h1
        · simp only [charListLe, if_neg hxy, if_neg hyz, decide_eq_true_eq] at h1 h2
          have hxz : x < z := lt_trans h1 h2
          simp [charListLe, ne_of_lt hxz, hxz]

/-- A proper extension of a character list is strictly later in the
lexicographic order: the prefix compares `≤` and the extension does not
compare back. -/
theorem charListLe_append (as bs : List Char) (hbs : bs ≠ []) :
    charListLe as (as ++ bs) = true ∧ charListLe (as ++ bs) as = false := by
  induction as with
  | nil =>
    cases bs with
    | nil => exact absurd rfl hbs
    | cons b bs' => exact ⟨rfl, rfl⟩
  | cons a as' ih =>
    simpa [charListLe] using ih

theorem mem_insertSorted {z x : String} {l : List String} :
    z ∈ insertSorted x l ↔ z = x ∨ z ∈ l := by
  induction l with
  | nil => simp [insertSorted]
  | cons y ys ih =>
    by_cases h : pathLe x y = true
    · simp only [insertSorted, if_pos h, List.mem_cons]
    · simp only [insertSorted, if_neg h, List.mem_cons, ih]
      tauto

theorem pairwise_insertSorted (x : String) (l : List String)
    (hl : l.Pairwise (fun a b => pathLe a b = true)) :
    (insertSorted x l).Pairwise (fun a b => pathLe a b = true) := by
  induction l with
  | nil => simp [insertSorted]
  | cons y ys ih =>
    rcases List.pairwise_cons.mp hl with ⟨hy, hys⟩
    by_cases h : pathLe x y = true
    · simp only [insertSorted, if_pos h]
      refine List.pairwise_cons.mpr ⟨?_, hl⟩
      intro z hz
      rcases List.mem_cons.mp hz with hzy | hzys
      · subst hzy; exact h
      · exact charListLe_trans _ _ _ h (hy z hzys)
    · simp only [insertSorted, if_neg h]
      refine List.pairwise_cons.mpr ⟨?_, ih hys⟩
      intro z hz
      rcases mem_insertSorted.mp hz with hzx | hzys
      · rw [hzx]
        rcases charListLe_total (String.data x) (String.data y) with h' | h'
        · exact absurd h' h
        · exact h'
      · exact hy z hzys

theorem perm_insertSorted (x : String) (l : List String) :
    (insertSorted x l).Perm (x :: l) := by
  induction l with
  | nil => simp [insertSorted]
  | cons y ys ih =>
    by_cases h : pathLe x y = true
    · simp [insertSorted, h]
    · simp only [insertSorted, if_neg h]
      exact (ih.cons y).trans (List.Perm.swap x y ys)

theorem perm_sortPaths (l : List String) : (sortPaths l).Perm l := by
  induction l with
  | nil => exact List.Perm.refl _
  | cons x xs ih =>
    exact (perm_insertSorted x (sortPaths xs)).trans (ih.cons x)

theorem pairwise_sortPaths (l : List String) :
    (sortPaths l).Pairwise (fun a b => pathLe a b = true) := by
  induction l with
  | nil => simp [sortPaths]
  | cons x xs ih => exact pairwise_insertSorted x (sortPaths xs) ih

/-- In a list sorted by `pathLe`, any element that strictly precedes
another in the order has a strictly smaller first-occurrence index. -/
theorem idx_lt_of_sorted {a b : String} (l : List String)
    (hsort : l.Pairwise (fun u v => pathLe u v = true))
    (ha : a ∈ l) (hb : b ∈ l) (hba : pathLe b a = false) :
    idx a l < idx b l := by
  induction l with
  | nil => cases ha
  | cons x xs ih =>
    rcases List.pairwise_cons.mp hsort with ⟨hx, hxs⟩
    have hab : a ≠ b := by
      intro h
      subst h
      simp [pathLe, charListLe_refl] at hba
    by_cases hxa : x = a
    · subst hxa
      have h0 : idx x (x :: xs) = 0 := by simp [idx]
      have h1 : idx b (x :: xs) = idx b xs + 1 := by simp [idx, hab]
      omega
    · have ha' : a ∈ xs := by
        rcases List.mem_cons.mp ha with ha | ha
        · exact absurd ha.symm hxa
        · assumption
      by_cases hxb : x = b
      · subst hxb
        have hxa' := hx a ha'
        simp [hxa'] at hba
      · have hb' : b ∈ xs := by
          rcases List.mem_cons.mp hb with hb | hb
          · exact absurd hb.symm hxb
          · assumption
        have hrec := ih hxs ha' hb'
        have h1 : idx a (x :: xs) = idx a xs + 1 := by simp [idx, hxa]
        have h2 : idx b (x :: xs) = idx b xs + 1 := by simp [idx, hxb]
        omega

/-! ## Push phase (`SyncWorker::scan_and_sync`, part B)

The push phase works on a snapshot of the local tree
(`scan_local_files`, sync.rs:676-738) and the store.  Remote calls and
local filesystem writes are logged into effect lists.  The modelled
server always succeeds and returns fresh identifiers `"id0"`, `"id1"`,
… in call order, so the `create_folder` adoption fallback
(sync.rs:842-869) is never taken in the model.
-/

/-- A remote mutation dispatched by the worker (api.rs surface). -/
inductive RemoteCall
  | createFolder (name : String) (parentId : Option String)
  | upload (originalName : String) (fileId : Option String) (folderId : Option String)
  | softDeleteFile (id : String)
  | deleteFolder (id : String)
deriving DecidableEq, Repr

/-- A local filesystem write performed by the push phase. -/
inductive FsOp
  | createDirAll (path : String)
deriving DecidableEq, Repr

structure PushState where
  db : Db
  calls : List RemoteCall
  fsOps : List FsOp
  fresh : Nat
deriving DecidableEq, Repr

/-- Identifier the modelled server returns for the `n`-th
identifier-producing call. -/
def newId (n : Nat) : String := "id" ++ toString n

/-- Parent resolution of `create_remote_folder` (sync.rs:798-822): a
non-trivial parent path must have a store record, otherwise the folder
creation is skipped with an error before any remote call; the result is
`(parent_id, propagated group_folder_id)`. -/
def folderParentLookup (db : Db) (path : String) :
    Option (Option String × Option String) :=
  let parent := parentPath path
  if parent ≠ "" ∧ parent ≠ "." then
    match dbGet db parent with
    | some r => some (r.id, if r.is_group_root then r.id else r.group_folder_id)
    | none => none
  else
    some (none, none)

/-- Parent resolution of `SyncWorker::upload_file` (sync.rs:952-971): a
missing parent record yields `(None, None)` instead of an error. -/
def uploadParentLookup (db : Db) (path : String) :
    Option String × Option String :=
  let parent := parentPath path
  if parent ≠ "" ∧ parent ≠ "." then
    match dbGet db parent with
    | some r => (r.id, if r.is_group_root then r.id else r.group_folder_id)
    | none => (none, none)
  else
    (none, none)

/-- `SyncWorker::create_remote_folder` (sync.rs:789-871), success path:
resolve the parent, call `create_folder(name, parent_id)`, and upsert
the record with the server-returned id and the propagated
`group_folder_id`.  A missing-parent error leaves the state unchanged
(the caller only logs it). -/
def createRemoteFolder (st : PushState) (path : String) : PushState :=
  match folderParentLookup st.db path with
  | none => st
  | some (parentId, pgfid) =>
      { st with
        calls := st.calls ++ [.createFolder (lastComponent path) parentId],
        db := dbInsert
          { id := some (newId st.fresh), path := path, hash := "directory",
            modified_at := 0, server_version := 0,
            group_folder_id := pgfid, is_group_root := false } st.db,
        fresh := st.fresh + 1 }

/-- `SyncWorker::upload_file` (sync.rs:939-1005): a directory is a
silent no-op (sync.rs:941-946); otherwise the existing id and the
parent folder id are looked up, `upload(local_path, id?, folder_id?,
path)` is dispatched, and the record is upserted with the returned id,
the file's hash and mtime and the propagated `group_folder_id`. -/
def syncUploadFile (st : PushState) (path : String) (isDir : Bool)
    (fileHash : String) (mtime : Int) : PushState :=
  if isDir then st
  else
    let existingId := (dbGet st.db path).bind (fun r => r.id)
    let pl := uploadParentLookup st.db path
    { st with
      calls := st.calls ++ [.upload path existingId pl.1],
      db := dbInsert
        { id := some (newId st.fresh), path := path, hash := fileHash,
          modified_at := mtime, server_version := 0,
          group_folder_id := pl.2, is_group_root := false } st.db,
      fresh := st.fresh + 1 }

/-- The local scan snapshot: relative path → scanned record
(`scan_local_files`, sync.rs:676-738). -/
abbrev LocalFiles := List (String × FileRecord)

def lookupLF (lf : LocalFiles) (p : String) : Option FileRecord :=
  (lf.find? (fun e => e.1 = p)).map (fun e => e.2)

/-- One iteration of the push creates/updates loop (sync.rs:621-666)
for path `path`: a changed hash on a file triggers an upload (a
file-to-folder type change is skipped), a record without id is
re-linked, and a path without a record is created remotely. -/
def pushItem (lf : LocalFiles) (st : PushState) (path : String) : PushState :=
  match lookupLF lf path with
  | none => st
  | some record =>
    match dbGet st.db path with
    | some dbRec =>
        let st1 :=
          if record.hash ≠ dbRec.hash then
            if record.hash = "directory" then st
            else syncUploadFile st path false record.hash record.modified_at
          else st
        if dbRec.id = none then
          if record.hash = "directory" then createRemoteFolder st1 path
          else syncUploadFile st1 path false record.hash record.modified_at
        else st1
    | none =>
        if record.hash = "directory" then createRemoteFolder st path
        else syncUploadFile st path false record.hash record.modified_at

/-- Push creates/updates (sync.rs:616-666): iterate the scanned paths
in sorted order. -/
def pushCreates (lf : LocalFiles) (st : PushState) : PushState :=
  (sortPaths (lf.map Prod.fst)).foldl (pushItem lf) st

/-- One iteration of the push deletions loop (sync.rs:591-613) for the
snapshot record `dbRec`: a path still present locally is untouched; a
group-root directory with an id is restored locally and its record
kept; any other record with an id gets the matching remote deletion and
is then removed; a record without an id is removed with no remote
call (the `if let Some(fid)` guard skips the entire dispatch). -/
def pushDeleteOne (localPaths : List String) (st : PushState)
    (dbRec : FileRecord) : PushState :=
  if dbRec.path ∈ localPaths then st
  else
    match dbRec.id with
    | some fid =>
        if dbRec.hash = "directory" ∧ dbRec.is_group_root then
          { st with fsOps := st.fsOps ++ [.createDirAll dbRec.path] }
        else
          { st with
            calls := st.calls ++
              [if dbRec.hash = "directory" then .deleteFolder fid
               else .softDeleteFile fid],
            db := dbDelete dbRec.path st.db }
    | none => { st with db := dbDelete dbRec.path st.db }

/-- Push deletions (sync.rs:590-614): fold over the snapshot
`db_records = get_all_files()` taken before the loop. -/
def pushDeletions (localPaths : List String) (st : PushState)
    (snapshot : List FileRecord) : PushState :=
  snapshot.foldl (pushDeleteOne localPaths) st

/-! ## C2 — push ordering and remote-folder parenting -/

/-- Scan record of a directory (sync.rs:720-735, with no pre-existing
store record). -/
def dirScanRec (p : String) : FileRecord :=
  { id := none, path := p, hash := "directory", modified_at := 0,
    server_version := 0, group_folder_id := none, is_group_root := false }

/-- Scan record of a file (sync.rs:697-719, with no pre-existing store
record). -/
def fileScanRec (p h : String) (mt : Int) : FileRecord :=
  { id := none, path := p, hash := h, modified_at := mt,
    server_version := 0, group_folder_id := none, is_group_root := false }

/-- The scan of the fresh local tree `p/q/r/file.txt`. -/
def demoScan : LocalFiles :=
  [("p", dirScanRec "p"), ("p/q", dirScanRec "p/q"),
   ("p/q/r", dirScanRec "p/q/r"),
   ("p/q/r/file.txt", fileScanRec "p/q/r/file.txt" "h0" 1)]

/-- Worker state with an empty store and no effects yet. -/
def emptyPush : PushState := { db := [], calls := [], fsOps := [], fresh := 0 }

/-- C2: The push creates/updates loop processes the scanned paths in
lexicographic order, so a parent directory (`q = p ++ "/" ++ s`) is
always processed strictly before its children; and pushing the fresh
nested tree `p/q/r/file.txt` against an empty store issues exactly four
remote calls: `create_folder("p", None)`, `create_folder("q", id_of_p)`,
`create_folder("r", id_of_q)`, and the upload with
`folder_id = id_of_r`, where `"id0"`, `"id1"`, `"id2"` are the ids the
modelled server returned for `p`, `q`, `r` respectively. -/
theorem push_sorted_parent_first :
    (∀ (l : List String) (p q s : String),
      p ∈ l → q ∈ l → q = p ++ "/" ++ s →
      idx p (sortPaths l) < idx q (sortPaths l)) ∧
    (pushCreates demoScan emptyPush).calls =
      [.createFolder "p" none,
       .createFolder "q" (some "id0"),
       .createFolder "r" (some "id1"),
       .upload "p/q/r/file.txt" none (some "id2")] := by
  constructor
  · intro l p q s hp hq hpq
    have hdata : q.data = p.data ++ ('/' :: s.data) := by
      subst hpq
      simp [String.data_append]
    have hext := charListLe_append p.data ('/' :: s.data) (by simp)
    have hqp : pathLe q p = false := by
      show charListLe q.data p.data = false
      rw [hdata]
      exact hext.2
    exact idx_lt_of_sorted (sortPaths l)
      (pairwise_sortPaths l)
      ((perm_sortPaths l).mem_iff.mpr hp)
      ((perm_sortPaths l).mem_iff.mpr hq)
      hqp
  · decide

/-- Witness for the ordering half of `push_sorted_parent_first` at a
concrete scan list. -/
theorem push_sorted_parent_first_witness :
    idx "p/q" (sortPaths ["p/q/r", "p/q"]) < idx "p/q/r" (sortPaths ["p/q/r", "p/q"]) :=
  push_sorted_parent_first.1 ["p/q/r", "p/q"] "p/q" "p/q/r" "r"
    (by decide) (by decide) (by decide)

/-! ## C3 / C9 — push deletions

The `if let Some(fid) = &db_rec.id` guard (sync.rs:595) wraps the whole
deletion dispatch, including the group-root restore; the unconditional
`db.delete_file` (sync.rs:611-612) runs for every record whose path is
locally gone except when the group-root branch `continue`s.  A record
without a server id (a pending local create, §3 of the spec) is
therefore removed from the store with no remote call and, even when it
is a group-root directory, without being restored locally.
-/

theorem dbGet_dbDelete (db : Db) (p : String) :
    dbGet (dbDelete p db) p = none := by
  rw [dbGet, List.find?_eq_none]
  intro r hr
  have := (List.mem_filter.mp hr).2
  simpa using this

/-- A group-root directory record that has no server id. -/
def groupRootNoId : FileRecord :=
  { id := none, path := "team-shared", hash := "directory", modified_at := 0,
    server_version := 0, group_folder_id := some "team-shared",
    is_group_root := true }

/-- Counterexample to C3 as stated: for the store record `groupRootNoId`
— a directory with `is_group_root = true` whose path is absent from the
local scan — the push deletion step does not recreate the directory and
does not retain the record: the record is removed from the store, no
filesystem restore happens, and (vacuously) no remote call is made. -/
theorem groupRoot_without_id_dropped :
    dbGet (pushDeleteOne []
      { db := [groupRootNoId], calls := [], fsOps := [], fresh := 0 }
      groupRootNoId).db "team-shared" = none ∧
    (pushDeleteOne []
      { db := [groupRootNoId], calls := [], fsOps := [], fresh := 0 }
      groupRootNoId).fsOps = [] := by
  decide

/-- C3 (amended): during push deletions, for every store record whose
path is absent from the local scan: if the record is a directory with
`is_group_root` true *and it carries a server id*, the local directory
is recreated, no remote call is made, and the record is retained;
otherwise, if it carries a server id, the matching remote deletion
(`delete_folder` for directories, `soft_delete_file` for files) is
dispatched and the record is removed afterwards; a record without a
server id is removed from the store with no remote call and no local
recreation. -/
theorem pushDeletion_dispatch (lp : List String) (st : PushState)
    (r : FileRecord) (fid : String) (habs : r.path ∉ lp) :
    (r.id = some fid → r.hash = "directory" ∧ r.is_group_root = true →
      (pushDeleteOne lp st r).db = st.db ∧
      (pushDeleteOne lp st r).calls = st.calls ∧
      (pushDeleteOne lp st r).fsOps =
        st.fsOps ++ [FsOp.createDirAll r.path]) ∧
    (r.id = some fid → ¬(r.hash = "directory" ∧ r.is_group_root = true) →
      (pushDeleteOne lp st r).calls = st.calls ++
        [if r.hash = "directory" then RemoteCall.deleteFolder fid
         else RemoteCall.softDeleteFile fid] ∧
      dbGet (pushDeleteOne lp st r).db r.path = none ∧
      (pushDeleteOne lp st r).fsOps = st.fsOps) ∧
    (r.id = none →
      (pushDeleteOne lp st r).calls = st.calls ∧
      dbGet (pushDeleteOne lp st r).db r.path = none ∧
      (pushDeleteOne lp st r).fsOps = st.fsOps) := by
  refine ⟨?_, ?_, ?_⟩
  · intro hid hgr
    simp [pushDeleteOne, habs, hid, hgr]
  · intro hid hgr
    simp [pushDeleteOne, habs, hid, hgr, dbGet_dbDelete]
  · intro hid
    simp [pushDeleteOne, habs, hid, dbGet_dbDelete]

/-- A group-root directory record with a server id. -/
def groupRootWithId : FileRecord :=
  { id := some "G", path := "team", hash := "directory", modified_at := 0,
    server_version := 0, group_folder_id := some "G", is_group_root := true }

/-- Witness for `pushDeletion_dispatch`: the group-root restore branch
at a concrete record with a server id. -/
theorem pushDeletion_dispatch_witness :
    (pushDeleteOne []
      { db := [groupRootWithId], calls := [], fsOps := [], fresh := 0 }
      groupRootWithId).db =
      ({ db := [groupRootWithId], calls := [], fsOps := [], fresh := 0 } : PushState).db ∧
    (pushDeleteOne []
      { db := [groupRootWithId], calls := [], fsOps := [], fresh := 0 }
      groupRootWithId).calls = [] ∧
    (pushDeleteOne []
      { db := [groupRootWithId], calls := [], fsOps := [], fresh := 0 }
      groupRootWithId).fsOps = [] ++ [FsOp.createDirAll "team"] :=
  (pushDeletion_dispatch [] _ groupRootWithId "G" (by decide)).1 rfl ⟨rfl, rfl⟩

theorem mem_calls_pushDeleteOne {c : RemoteCall} {lp : List String}
    {st : PushState} (r : FileRecord) (h : c ∈ st.calls) :
    c ∈ (pushDeleteOne lp st r).calls := by
  unfold pushDeleteOne
  split
  · exact h
  · split
    · split
      · exact h
      · simpa using Or.inl h
    · exact h

theorem mem_calls_pushDeletions {c : RemoteCall} {lp : List String}
    (snapshot : List FileRecord) (st : PushState) (h : c ∈ st.calls) :
    c ∈ (pushDeletions lp st snapshot).calls := by
  induction snapshot generalizing st with
  | nil => exact h
  | cons s rest ih => exact ih _ (mem_calls_pushDeleteOne s h)

/-- A file record that has no server id. -/
def fileNoId : FileRecord :=
  { id := none, path := "notes.md", hash := "abc123", modified_at := 5,
    server_version := 0, group_folder_id := none, is_group_root := false }

/-- Counterexample to C9 as stated: the store record `fileNoId`, whose
path is absent locally, is removed from the store by the push deletions
pass although no remote deletion call whatsoever was dispatched during
the pass. -/
theorem record_destroyed_without_remote_call :
    dbGet (pushDeletions []
      { db := [fileNoId], calls := [], fsOps := [], fresh := 0 }
      [fileNoId]).db "notes.md" = none ∧
    (pushDeletions []
      { db := [fileNoId], calls := [], fsOps := [], fresh := 0 }
      [fileNoId]).calls = [] := by
  decide

/-- C9 (amended): for every snapshot record carrying a server id whose
path has disappeared locally and which is not a group-root directory,
the push deletions pass dispatches the matching remote deletion
(`delete_folder` for directories, `soft_delete_file` for files); a
record without a server id is removed from the store without any remote
call, and group-root directory records are retained. -/
theorem pushDeletions_call_for_removed (lp : List String) (st : PushState)
    (snapshot : List FileRecord) (r : FileRecord) (fid : String)
    (hmem : r ∈ snapshot) (hid : r.id = some fid) (habs : r.path ∉ lp)
    (hngr : ¬(r.hash = "directory" ∧ r.is_group_root = true)) :
    (if r.hash = "directory" then RemoteCall.deleteFolder fid
     else RemoteCall.softDeleteFile fid)
      ∈ (pushDeletions lp st snapshot).calls := by
  induction snapshot generalizing st with
  | nil => cases hmem
  | cons s rest ih =>
    rcases List.mem_cons.mp hmem with hr | hr
    · subst hr
      refine mem_calls_pushDeletions rest _ ?_
      unfold pushDeleteOne
      rw [if_neg habs, hid]
      simp only
      rw [if_neg hngr]
      simp
    · exact ih _ hr

/-- A deleted file record carrying a server id. -/
def fileWithId : FileRecord :=
  { id := some "X", path := "gone.txt", hash := "deadbeef", modified_at := 0,
    server_version := 0, group_folder_id := none, is_group_root := false }

/-- Witness for `pushDeletions_call_for_removed`: a concrete deleted
file record with a server id yields a `soft_delete_file` call. -/
theorem pushDeletions_call_for_removed_witness :
    (if fileWithId.hash = "directory" then RemoteCall.deleteFolder "X"
     else RemoteCall.softDeleteFile "X")
      ∈ (pushDeletions []
        { db := [fileWithId], calls := [], fsOps := [], fresh := 0 }
        [fileWithId]).calls :=
  pushDeletions_call_for_removed []
    { db := [fileWithId], calls := [], fsOps := [], fresh := 0 }
    [fileWithId] fileWithId "X" (by decide) rfl (by decide) (by decide)

/-! ## C4 — pull-phase conflict backup

The conflict branch (sync.rs:376-403) renames the local file to
`local_path.with_extension("conflict_backup")` before downloading.
Rust's `Path::with_extension` *replaces* the file name's extension: the
extension is the portion of the file name after the last `'.'`, where a
name without a `'.'`, or whose only `'.'` is its leading character, has
no extension.
-/

/-- Rust `Path::file_stem` of a file name: the name with its extension
removed (the whole name when there is no extension). -/
def rustFileStem (name : String) : String :=
  let rev := name.data.reverse
  let pre := rev.takeWhile (fun c => c ≠ '.')
  if pre.length = rev.length then name
  else
    let stem := (rev.drop (pre.length + 1)).reverse
    if stem = [] then name
    else String.mk stem

/-- Rust `Path::with_extension` on a file name, for a non-empty new
extension: the stem joined with the new extension. -/
def rustWithExtension (name ext : String) : String :=
  rustFileStem name ++ "." ++ ext

/-- The backup path computed at sync.rs:398-399:
`local_path.with_extension("conflict_backup")`, expressed on the
root-relative path. -/
def conflictBackupPath (p : String) : String :=
  let backupName := rustWithExtension (lastComponent p) "conflict_backup"
  if parentPath p = "" then backupName
  else parentPath p ++ "/" ++ backupName

/-- An effect of applying a pulled file `create`/`update`/`copy` event. -/
inductive PullFileAction
  | download (fileId path : String)
  | rename (fromPath toPath : String)
  | upsertMeta (r : FileRecord)
deriving DecidableEq, Repr

/-- Application of a `create`/`update`/`copy` event for a file
(sync.rs:362-427): equal hashes merely upsert metadata; an absent local
file (empty local hash) downloads; a differing local file downloads,
preceded by the conflict-backup rename exactly when the local mtime is
strictly greater than the recorded mtime. -/
def applyFileEvent (fileId path remoteHash localHash : String)
    (localMtime dbMtime : Int) (dataGroupFolderId : Option String) :
    List PullFileAction :=
  if localHash ≠ remoteHash then
    if localHash = "" then [.download fileId path]
    else if localMtime > dbMtime then
      [.rename path (conflictBackupPath path), .download fileId path]
    else [.download fileId path]
  else
    [.upsertMeta
      { id := some fileId, path := path, hash := remoteHash,
        modified_at := 0, server_version := 0,
        group_folder_id := dataGroupFolderId, is_group_root := false }]

/-- Counterexample to C4 as stated: in the conflict case for `x.txt`
(local hash `B`, remote hash `C`, local mtime 5 > recorded mtime 0) the
engine renames the file to `x.conflict_backup` — the extension is
*replaced*, not appended — which differs from the claimed
`x.txt.conflict_backup`. -/
theorem conflict_backup_replaces_extension :
    applyFileEvent "I" "x.txt" "C" "B" 5 0 none =
      [.rename "x.txt" "x.conflict_backup", .download "I" "x.txt"] ∧
    conflictBackupPath "x.txt" ≠ "x.txt.conflict_backup" := by
  decide

/-- C4 (amended): when the pull phase applies a create/update/copy
event for a file whose local hash differs from the remote hash and
whose local mtime is strictly greater than the recorded mtime, the
local file is first renamed to the backup obtained by *replacing* the
file name's final extension with `conflict_backup` (`x.txt` becomes
`x.conflict_backup`; a name without an extension gets
`.conflict_backup` appended), and only then is the remote content
downloaded over the original path. -/
theorem conflict_backup_then_download (fileId path remoteHash localHash : String)
    (localMtime dbMtime : Int) (gfid : Option String)
    (hne : localHash ≠ remoteHash) (habs : localHash ≠ "")
    (hmt : localMtime > dbMtime) :
    applyFileEvent fileId path remoteHash localHash localMtime dbMtime gfid =
      [.rename path (conflictBackupPath path), .download fileId path] := by
  simp [applyFileEvent, hne, habs, hmt]

/-- Witness for `conflict_backup_then_download` at the concrete
conflict of spec scenario 3, including the extension-less naming case.
-/
theorem conflict_backup_then_download_witness :
    applyFileEvent "I2" "docs/x.txt" "C" "B" 5 0 none =
      [.rename "docs/x.txt" (conflictBackupPath "docs/x.txt"),
       .download "I2" "docs/x.txt"] ∧
    conflictBackupPath "docs/x.txt" = "docs/x.conflict_backup" ∧
    conflictBackupPath "README" = "README.conflict_backup" :=
  ⟨conflict_backup_then_download "I2" "docs/x.txt" "C" "B" 5 0 none
      (by decide) (by decide) (by decide),
    by decide, by decide⟩

/-! ## C5 / C6 — upload size policy and chunked upload

Constants from api.rs:7-9.  `XynoxaClient::upload_file` (api.rs:348-432)
checks the size ceiling first (api.rs:360-365, a local error before any
HTTP request), then branches to `upload_file_chunked` above the chunk
threshold (api.rs:367-371), rejects directories (api.rs:374-379;
`upload_file_chunked` performs the same check at api.rs:443-448), and
otherwise performs one multipart POST.
-/

def MAX_UPLOAD_BYTES : Nat := 5 * 1024 * 1024 * 1024

def CHUNK_THRESHOLD_BYTES : Nat := 50 * 1024 * 1024

def CHUNK_SIZE_BYTES : Nat := 1 * 1024 * 1024

inductive UploadMode
  | single
  | chunked
deriving DecidableEq, Repr

inductive UploadError
  | tooLarge
  | isDirectory
deriving DecidableEq, Repr

/-- The branch `upload_file` takes for a path of the given kind and
size (api.rs:348-380, with the directory check of api.rs:443-448 for
the chunked branch). -/
def clientUploadPlan (isDir : Bool) (fileSize : Nat) :
    Except UploadError UploadMode :=
  if fileSize > MAX_UPLOAD_BYTES then .error .tooLarge
  else if fileSize > CHUNK_THRESHOLD_BYTES then
    (if isDir then .error .isDirectory else .ok .chunked)
  else if isDir then .error .isDirectory else .ok .single

/-- `total_chunks` (api.rs:454): the code computes
`((file_size as f64) / (CHUNK_SIZE_BYTES as f64)).ceil() as u64`; for
every size admitted by the 5 GiB ceiling (far below `2^53`) the `f64`
division by the power of two `2^20` and the ceiling are exact, so the
value equals the integer ceiling division modelled here. -/
def numChunks (n : Nat) : Nat :=
  (n + CHUNK_SIZE_BYTES - 1) / CHUNK_SIZE_BYTES

/-- An HTTP request issued by `upload_file` / `upload_file_chunked`. -/
inductive HttpReq
  | postUpload
  | chunkStart
  | chunkSend (index : Nat)
  | chunkComplete
deriving DecidableEq, Repr

/-- The HTTP requests `upload_file` issues for a regular file of size
`n`: none on the local size-limit error, one multipart POST below the
chunk threshold, and the start/chunk…/complete handshake above it
(api.rs:348-432, 434-577). -/
def uploadRequests (isDir : Bool) (n : Nat) : List HttpReq :=
  match clientUploadPlan isDir n with
  | .error _ => []
  | .ok .single => [.postUpload]
  | .ok .chunked =>
      .chunkStart :: ((List.range (numChunks n)).map .chunkSend) ++
        [.chunkComplete]

/-- C5: for every file upload, a size above 5 GiB yields the local
size-limit error with no network request; otherwise a size above
50 MiB takes the chunked start/chunk/complete protocol; otherwise a
single multipart upload request is performed. -/
theorem upload_size_policy (n : Nat) :
    (n > 5 * 1024 * 1024 * 1024 →
      clientUploadPlan false n = .error .tooLarge ∧
      uploadRequests false n = []) ∧
    (n ≤ 5 * 1024 * 1024 * 1024 → n > 50 * 1024 * 1024 →
      clientUploadPlan false n = .ok .chunked ∧
      uploadRequests false n =
        .chunkStart :: ((List.range (numChunks n)).map .chunkSend) ++
          [.chunkComplete]) ∧
    (n ≤ 50 * 1024 * 1024 →
      clientUploadPlan false n = .ok .single ∧
      uploadRequests false n = [.postUpload]) := by
  refine ⟨?_, ?_, ?_⟩
  · intro h
    have hm : n > MAX_UPLOAD_BYTES := by
      simp only [MAX_UPLOAD_BYTES]
      omega
    have hplan : clientUploadPlan false n = .error .tooLarge := by
      unfold clientUploadPlan
      rw [if_pos hm]
    refine ⟨hplan, ?_⟩
    unfold uploadRequests
    rw [hplan]
  · intro h1 h2
    have hm : ¬ n > MAX_UPLOAD_BYTES := by
      simp only [MAX_UPLOAD_BYTES]
      omega
    have hc : n > CHUNK_THRESHOLD_BYTES := by
      simp only [CHUNK_THRESHOLD_BYTES]
      omega
    have hplan : clientUploadPlan false n = .ok .chunked := by
      unfold clientUploadPlan
      rw [if_neg hm, if_pos hc, if_neg Bool.false_ne_true]
    refine ⟨hplan, ?_⟩
    unfold uploadRequests
    rw [hplan]
  · intro h
    have hm : ¬ n > MAX_UPLOAD_BYTES := by
      simp only [MAX_UPLOAD_BYTES]
      omega
    have hc : ¬ n > CHUNK_THRESHOLD_BYTES := by
      simp only [CHUNK_THRESHOLD_BYTES]
      omega
    have hplan : clientUploadPlan false n = .ok .single := by
      unfold clientUploadPlan
      rw [if_neg hm, if_neg hc, if_neg Bool.false_ne_true]
    refine ⟨hplan, ?_⟩
    unfold uploadRequests
    rw [hplan]

/-- Witness for `upload_size_policy` at the three boundary sizes
5 GiB + 1 (rejected locally), 50 MiB + 1 (chunked) and 50 MiB
(single multipart). -/
theorem upload_size_policy_witness :
    (clientUploadPlan false 5368709121 = .error .tooLarge ∧
      uploadRequests false 5368709121 = []) ∧
    (clientUploadPlan false 52428801 = .ok .chunked ∧
      uploadRequests false 52428801 =
        .chunkStart :: ((List.range (numChunks 52428801)).map .chunkSend) ++
          [.chunkComplete]) ∧
    (clientUploadPlan false 52428800 = .ok .single ∧
      uploadRequests false 52428800 = [.postUpload]) :=
  ⟨(upload_size_policy 5368709121).1 (by norm_num),
   (upload_size_policy 52428801).2.1 (by norm_num) (by norm_num),
   (upload_size_policy 52428800).2.2 (by norm_num)⟩

/-! ### The chunk transmission loop (api.rs:503-544)

The loop reads up to `CHUNK_SIZE_BYTES` bytes at a time (for a regular
on-disk file the read fills the buffer until the data is exhausted),
breaks on a zero-byte read, and otherwise POSTs the slice read together
with the running `chunk_index`, which starts at 0 and increments by 1
per transmitted chunk.  `chunkLoop bytes idx` is the list of
`(chunk_index, chunk)` pairs transmitted. -/

def chunkLoop : List Nat → Nat → List (Nat × List Nat)
  | [], _ => []
  | x :: xs, idx =>
      (idx, (x :: xs).take CHUNK_SIZE_BYTES) ::
        chunkLoop ((x :: xs).drop CHUNK_SIZE_BYTES) (idx + 1)
termination_by l _ => l.length
decreasing_by
  simp only [List.length_drop, List.length_cons, CHUNK_SIZE_BYTES]
  omega

theorem chunkSize_pos : 0 < CHUNK_SIZE_BYTES := by
  simp only [CHUNK_SIZE_BYTES]; omega

theorem chunkLoop_flatten_aux (n : Nat) :
    ∀ (l : List Nat), l.length ≤ n → ∀ (i : Nat),
      ((chunkLoop l i).map Prod.snd).flatten = l := by
  induction n with
  | zero =>
    intro l hl i
    have : l = [] := List.length_eq_zero.mp (Nat.le_zero.mp hl)
    subst this
    simp [chunkLoop]
  | succ m ih =>
    intro l hl i
    cases l with
    | nil => simp [chunkLoop]
    | cons x xs =>
      rw [chunkLoop]
      simp only [List.map_cons, List.flatten_cons]
      rw [ih (List.drop CHUNK_SIZE_BYTES (x :: xs))
        (by
          rw [List.length_drop]
          have := chunkSize_pos
          have hc : 0 < (x :: xs).length := by
            simp only [List.length_cons]; omega
          omega)
        (i + 1)]
      exact List.take_append_drop CHUNK_SIZE_BYTES (x :: xs)

/-- The concatenation of the transmitted chunks is the file's bytes. -/
theorem chunkLoop_flatten (l : List Nat) (i : Nat) :
    ((chunkLoop l i).map Prod.snd).flatten = l :=
  chunkLoop_flatten_aux l.length l le_rfl i

theorem numChunks_step (len : Nat) (h : 0 < len) :
    numChunks len = numChunks (len - CHUNK_SIZE_BYTES) + 1 := by
  simp only [numChunks, CHUNK_SIZE_BYTES]
  omega

theorem chunkLoop_indices_aux (n : Nat) :
    ∀ (l : List Nat), l.length ≤ n → ∀ (i : Nat),
      (chunkLoop l i).map Prod.fst = List.range' i (numChunks l.length) := by
  induction n with
  | zero =>
    intro l hl i
    have : l = [] := List.length_eq_zero.mp (Nat.le_zero.mp hl)
    subst this
    simp [chunkLoop, numChunks, CHUNK_SIZE_BYTES]
  | succ m ih =>
    intro l hl i
    cases l with
    | nil => simp [chunkLoop, numChunks, CHUNK_SIZE_BYTES]
    | cons x xs =>
      rw [chunkLoop]
      simp only [List.map_cons]
      rw [ih (List.drop CHUNK_SIZE_BYTES (x :: xs))
        (by
          rw [List.length_drop]
          have := chunkSize_pos
          omega)
        (i + 1)]
      have hpos : 0 < (x :: xs).length := by
        simp only [List.length_cons]
        omega
      rw [List.length_drop, numChunks_step _ hpos, List.range'_succ]

/-- The transmitted chunk indices are `i, i+1, …`, `numChunks` many. -/
theorem chunkLoop_indices (l : List Nat) (i : Nat) :
    (chunkLoop l i).map Prod.fst = List.range' i (numChunks l.length) :=
  chunkLoop_indices_aux l.length l le_rfl i

theorem chunkLoop_length (l : List Nat) (i : Nat) :
    (chunkLoop l i).length = numChunks l.length := by
  have h := congrArg List.length (chunkLoop_indices l i)
  simpa [List.length_range'] using h

theorem numChunks_one (len : Nat) (h1 : 0 < len) (h2 : len ≤ CHUNK_SIZE_BYTES) :
    numChunks len = 1 := by
  simp only [numChunks, CHUNK_SIZE_BYTES] at h2 ⊢
  omega

theorem numChunks_sub_one_step (len : Nat) (h : CHUNK_SIZE_BYTES < len) :
    numChunks len - 1 = (numChunks (len - CHUNK_SIZE_BYTES) - 1) + 1 := by
  simp only [numChunks, CHUNK_SIZE_BYTES] at h ⊢
  omega

theorem mod_sub_chunk (len : Nat) (h : CHUNK_SIZE_BYTES ≤ len) :
    (len - CHUNK_SIZE_BYTES) % CHUNK_SIZE_BYTES = len % CHUNK_SIZE_BYTES := by
  simp only [CHUNK_SIZE_BYTES] at h ⊢
  omega

theorem last_chunk_small (len : Nat) (h1 : 0 < len) (h2 : len ≤ CHUNK_SIZE_BYTES) :
    (if len % CHUNK_SIZE_BYTES = 0 then CHUNK_SIZE_BYTES
     else len % CHUNK_SIZE_BYTES) = len := by
  simp only [CHUNK_SIZE_BYTES] at h2 ⊢
  split <;> omega

theorem chunkLoop_sizes_aux (n : Nat) :
    ∀ (l : List Nat), l.length ≤ n → l ≠ [] → ∀ (i : Nat),
      (chunkLoop l i).map (fun p => p.2.length) =
        List.replicate (numChunks l.length - 1) CHUNK_SIZE_BYTES ++
          [if l.length % CHUNK_SIZE_BYTES = 0 then CHUNK_SIZE_BYTES
           else l.length % CHUNK_SIZE_BYTES] := by
  induction n with
  | zero =>
    intro l hl hne i
    exact absurd (List.length_eq_zero.mp (Nat.le_zero.mp hl)) hne
  | succ m ih =>
    intro l hl hne i
    cases l with
    | nil => exact absurd rfl hne
    | cons x xs =>
      have hpos : 0 < (x :: xs).length := by
        simp only [List.length_cons]
        omega
      by_cases hsmall : (x :: xs).length ≤ CHUNK_SIZE_BYTES
      · rw [chunkLoop, List.drop_eq_nil_of_le hsmall, chunkLoop,
          List.take_of_length_le hsmall]
        simp only [List.map_cons, List.map_nil]
        rw [numChunks_one _ hpos hsmall, last_chunk_small _ hpos hsmall,
          Nat.sub_self, List.replicate_zero, List.nil_append]
      · have hlen : CHUNK_SIZE_BYTES < (x :: xs).length := Nat.lt_of_not_le hsmall
        have hle : CHUNK_SIZE_BYTES ≤ (x :: xs).length := le_of_lt hlen
        have hdropne : List.drop CHUNK_SIZE_BYTES (x :: xs) ≠ [] := by
          intro hcon
          have h2 := congrArg List.length hcon
          rw [List.length_drop, List.length_nil] at h2
          omega
        rw [chunkLoop]
        simp only [List.map_cons]
        rw [ih (List.drop CHUNK_SIZE_BYTES (x :: xs))
          (by
            rw [List.length_drop]
            have := chunkSize_pos
            omega)
          hdropne (i + 1)]
        rw [List.length_drop, List.length_take_of_le hle,
          mod_sub_chunk _ hle, numChunks_sub_one_step _ hlen,
          List.replicate_succ, List.cons_append]

/-- Chunk sizes: every chunk except the last is exactly
`CHUNK_SIZE_BYTES`; the last carries the remainder. -/
theorem chunkLoop_sizes (l : List Nat) (hne : l ≠ []) (i : Nat) :
    (chunkLoop l i).map (fun p => p.2.length) =
      List.replicate (numChunks l.length - 1) CHUNK_SIZE_BYTES ++
        [if l.length % CHUNK_SIZE_BYTES = 0 then CHUNK_SIZE_BYTES
         else l.length % CHUNK_SIZE_BYTES] :=
  chunkLoop_sizes_aux l.length l le_rfl hne i

/-- C6: for a chunked upload of a file of `n > 50 MiB` bytes, the
declared `total_chunks` equals `⌈n / 1 MiB⌉` and equals the number of
chunks the loop transmits; the chunks carry the consecutive indices
`0, 1, 2, …`; every chunk except the last carries exactly 1 MiB and the
last carries the remainder (`1 MiB` exactly when `1 MiB` divides `n`);
and the concatenation of the transmitted chunks equals the file's
bytes. -/
theorem chunked_upload_protocol (xs : List Nat)
    (h : xs.length > CHUNK_THRESHOLD_BYTES) :
    numChunks xs.length = (chunkLoop xs 0).length ∧
    (chunkLoop xs 0).map Prod.fst = List.range' 0 ((chunkLoop xs 0).length) ∧
    (chunkLoop xs 0).map (fun p => p.2.length) =
      List.replicate ((chunkLoop xs 0).length - 1) CHUNK_SIZE_BYTES ++
        [if xs.length % CHUNK_SIZE_BYTES = 0 then CHUNK_SIZE_BYTES
         else xs.length % CHUNK_SIZE_BYTES] ∧
    ((chunkLoop xs 0).map Prod.snd).flatten = xs := by
  have hne : xs ≠ [] := by
    intro hcon
    subst hcon
    simp only [List.length_nil, CHUNK_THRESHOLD_BYTES] at h
    omega
  have hlen := chunkLoop_length xs 0
  refine ⟨hlen.symm, ?_, ?_, chunkLoop_flatten xs 0⟩
  · rw [chunkLoop_indices xs 0, hlen]
  · rw [chunkLoop_sizes xs hne 0, hlen]

/-- Witness for `chunked_upload_protocol` at a 50 MiB + 1 byte file
(all zero bytes): the chunked path is taken and — since
`52428801 % 2^20 = 1` — a final one-byte chunk terminates the loop. -/
theorem chunked_upload_protocol_witness :
    (List.replicate 52428801 (0 : Nat)).length > CHUNK_THRESHOLD_BYTES ∧
    (numChunks (List.replicate 52428801 (0 : Nat)).length =
      (chunkLoop (List.replicate 52428801 (0 : Nat)) 0).length ∧
    (chunkLoop (List.replicate 52428801 (0 : Nat)) 0).map Prod.fst =
      List.range' 0 ((chunkLoop (List.replicate 52428801 (0 : Nat)) 0).length) ∧
    (chunkLoop (List.replicate 52428801 (0 : Nat)) 0).map
        (fun p => p.2.length) =
      List.replicate
          ((chunkLoop (List.replicate 52428801 (0 : Nat)) 0).length - 1)
          CHUNK_SIZE_BYTES ++
        [if (List.replicate 52428801 (0 : Nat)).length % CHUNK_SIZE_BYTES = 0
         then CHUNK_SIZE_BYTES
         else (List.replicate 52428801 (0 : Nat)).length % CHUNK_SIZE_BYTES] ∧
    ((chunkLoop (List.replicate 52428801 (0 : Nat)) 0).map Prod.snd).flatten =
      List.replicate 52428801 (0 : Nat)) :=
  ⟨by rw [List.length_replicate]; norm_num [CHUNK_THRESHOLD_BYTES],
   chunked_upload_protocol (List.replicate 52428801 (0 : Nat))
     (by rw [List.length_replicate]; norm_num [CHUNK_THRESHOLD_BYTES])⟩

/-! ## C7 — move integrity verification

After a successful local rename (sync.rs:498-551) the engine recomputes
the destination hash and reads the destination size.  The expected hash
(sync.rs:501) is `data.hash.as_deref().unwrap_or(&old_record.hash)` —
it falls back to the *old record's* hash when the event carries none —
and the corruption test (sync.rs:507) is
`file_size == 0 || (new_hash != expected_hash && !expected_hash.is_empty())`.
-/

/-- An effect of the move-success branch. -/
inductive MoveAct
  | removeFile (p : String)
  | dbDeleteRec (p : String)
  | download (id p : String)
  | dbUpsert (r : FileRecord)
deriving DecidableEq, Repr

/-- `expected_hash` (sync.rs:501). -/
def expectedHash (dataHash : Option String) (oldHash : String) : String :=
  dataHash.getD oldHash

/-- The success branch of a `move` event after `fs::rename` succeeded
(sync.rs:498-551): when the corruption test fires, the destination is
removed, the old record deleted and the content re-downloaded;
otherwise the old record is deleted and the new record upserted with
the freshly computed hash (`mtime` is the destination's filesystem
mtime, falling back to the old record's at sync.rs:532-536). -/
def moveSuccessActions (oldRec : FileRecord) (dataHash : Option String)
    (dataGroupFolderId dataParentId : Option String)
    (fileId newPath newHash : String) (fileSize : Nat) (mtime : Int) :
    List MoveAct :=
  if fileSize = 0 ∨ (newHash ≠ expectedHash dataHash oldRec.hash ∧
      expectedHash dataHash oldRec.hash ≠ "") then
    [.removeFile newPath, .dbDeleteRec oldRec.path, .download fileId newPath]
  else
    [.dbDeleteRec oldRec.path,
     .dbUpsert
       { id := some fileId, path := newPath, hash := newHash,
         modified_at := mtime, server_version := oldRec.server_version,
         group_folder_id := dataGroupFolderId,
         is_group_root :=
           ((dataGroupFolderId.map (fun g => decide (g = fileId))).getD false)
             && dataParentId.isNone }]

/-- The re-download condition exactly as C7 states it: size zero, or a
mismatch against `data.hash` *when that field is present*. -/
def claimedMoveRedownload (dataHash : Option String) (newHash : String)
    (fileSize : Nat) : Prop :=
  fileSize = 0 ∨ (∃ h, dataHash = some h ∧ newHash ≠ h)

/-- The record of `docs/a.md` before the move event. -/
def movedOldRec : FileRecord :=
  { id := some "I", path := "docs/a.md", hash := "a", modified_at := 3,
    server_version := 0, group_folder_id := none, is_group_root := false }

/-- Counterexample to C7 as stated: for a move event carrying no
`data.hash`, a non-empty destination (size 1) whose recomputed hash
`"b"` merely differs from the *old record's* hash `"a"`, the code takes
the delete-and-re-download branch although the claim's condition (size
0, or a mismatch against a present `data.hash`) does not hold — so the
claimed "otherwise upsert" behaviour is violated at this input. -/
theorem move_redownload_without_data_hash :
    moveSuccessActions movedOldRec none none none "I" "archive/a.md" "b" 1 7 =
      [.removeFile "archive/a.md", .dbDeleteRec "docs/a.md",
       .download "I" "archive/a.md"] ∧
    ¬ claimedMoveRedownload none "b" 1 := by
  constructor
  · decide
  · intro hc
    rcases hc with h | ⟨h, hh, _⟩
    · exact one_ne_zero h
    · cases hh

/-- C7 (amended): when a remote move event is applied and the local
atomic rename succeeds, the engine recomputes the destination's hash;
if the destination's size is 0, or the recomputed hash differs from the
expected hash — `data.hash` when present, otherwise the old record's
hash — and that expected hash is non-empty, the destination is deleted
and the file is re-downloaded; otherwise the new record is upserted
with the freshly computed hash and the old path's record is deleted. -/
theorem move_verification (oldRec : FileRecord)
    (dataHash dgfi dpi : Option String) (fileId newPath newHash : String)
    (fileSize : Nat) (mtime : Int) :
    (fileSize = 0 ∨ (newHash ≠ expectedHash dataHash oldRec.hash ∧
        expectedHash dataHash oldRec.hash ≠ "") →
      moveSuccessActions oldRec dataHash dgfi dpi fileId newPath newHash
          fileSize mtime =
        [.removeFile newPath, .dbDeleteRec oldRec.path,
         .download fileId newPath]) ∧
    (¬ (fileSize = 0 ∨ (newHash ≠ expectedHash dataHash oldRec.hash ∧
        expectedHash dataHash oldRec.hash ≠ "")) →
      moveSuccessActions oldRec dataHash dgfi dpi fileId newPath newHash
          fileSize mtime =
        [.dbDeleteRec oldRec.path,
         .dbUpsert
           { id := some fileId, path := newPath, hash := newHash,
             modified_at := mtime, server_version := oldRec.server_version,
             group_folder_id := dgfi,
             is_group_root :=
               ((dgfi.map (fun g => decide (g = fileId))).getD false)
                 && dpi.isNone }]) := by
  constructor
  · intro h
    unfold moveSuccessActions
    rw [if_pos h]
  · intro h
    unfold moveSuccessActions
    rw [if_neg h]

/-- Witness for `move_verification`: a zero-size destination is
re-downloaded; an intact destination (matching hash, positive size) is
finalized with the freshly computed hash. -/
theorem move_verification_witness :
    moveSuccessActions movedOldRec (some "h9") none none "I" "archive/a.md"
        "h9" 0 7 =
      [.removeFile "archive/a.md", .dbDeleteRec "docs/a.md",
       .download "I" "archive/a.md"] ∧
    moveSuccessActions movedOldRec (some "h9") none none "I" "archive/a.md"
        "h9" 12 7 =
      [.dbDeleteRec "docs/a.md",
       .dbUpsert
         { id := some "I", path := "archive/a.md", hash := "h9",
           modified_at := 7, server_version := movedOldRec.server_version,
           group_folder_id := none,
           is_group_root :=
             (((none : Option String).map (fun g => decide (g = "I"))).getD
                 false)
               && (none : Option String).isNone }] :=
  ⟨(move_verification movedOldRec (some "h9") none none "I" "archive/a.md"
      "h9" 0 7).1 (Or.inl rfl),
   (move_verification movedOldRec (some "h9") none none "I" "archive/a.md"
      "h9" 12 7).2 (by decide)⟩

/-! ## C8 — the "sync active" flag muzzles the watcher

The watcher closure (sync.rs:48-98) first checks the shared
`sync_active` flag and returns without forwarding anything while it is
set; then it drops access events and events whose paths are all
irrelevant (the root itself, outside the root, or containing an
ignored component).  The worker loop (sync.rs:183-271) brackets every
pass — the initial sync, a forced sync, a debounced full sync, and a
periodic pull-only sync — with `store(true)` before and `store(false)`
after, on both the success and the error path (errors are only
logged).  The trace model below serialises worker steps and watcher
invocations; an event produced by a pass's own writes is delivered
while the pass runs, i.e. against the flag value at that point of the
trace. -/

inductive WatchEventKind
  | access
  | create
  | modify
  | remove
deriving DecidableEq, Repr

/-- A path carried by a notify event, relative to the sync root. -/
inductive WatchPath
  | outsideRoot
  | rootItself
  | under (components : List String)
deriving DecidableEq, Repr

structure WatchEvent where
  kind : WatchEventKind
  paths : List WatchPath
deriving DecidableEq, Repr

/-- Ignored path components (sync.rs:74-78; the source lists
`".xynoxa.db"` twice). -/
def ignoredComponent (c : String) : Bool :=
  c = ".git" || c = "node_modules" || c = ".xynoxa.db"

/-- A path is relevant when it is a strict descendant of the root none
of whose components is ignored (sync.rs:64-87). -/
def pathRelevant : WatchPath → Bool
  | .outsideRoot => false
  | .rootItself => false
  | .under cs => cs.all (fun c => !ignoredComponent c)

inductive SyncCommand
  | forceSync
  | fileSystemEvent (e : WatchEvent)
deriving DecidableEq, Repr

/-- The watcher closure (sync.rs:49-95): the command it forwards to the
worker channel for one event, given the current value of the shared
`sync_active` flag — `none` when the event is dropped. -/
def watcherCallback (syncActive : Bool) (e : WatchEvent) :
    Option SyncCommand :=
  if syncActive then none
  else if e.kind = .access then none
  else if e.paths.any pathRelevant then some (.fileSystemEvent e)
  else none

/-- An atomic step of the worker thread visible to the watcher: a write
of the `sync_active` flag, or the execution of one pass
(`scan_and_sync`, full or pull-only). -/
inductive WorkerAction
  | setActive (b : Bool)
  | pass (full : Bool)
deriving DecidableEq, Repr

/-- One wakeup of the worker loop (sync.rs:220-268). -/
inductive LoopEvent
  | cmdForceSync
  | cmdFsEvent
  | timeoutPending
  | timeoutIdle
deriving DecidableEq, Repr

/-- The worker steps of one loop iteration (sync.rs:220-268): a forced
sync and a debounce expiry run a bracketed full pass, a periodic
timeout runs a bracketed pull-only pass, and a filesystem-event command
only resets the debounce clock.  The flag is cleared regardless of the
pass's outcome (the `Err` is only logged). -/
def iterationActions : LoopEvent → List WorkerAction
  | .cmdForceSync => [.setActive true, .pass true, .setActive false]
  | .cmdFsEvent => []
  | .timeoutPending => [.setActive true, .pass true, .setActive false]
  | .timeoutIdle => [.setActive true, .pass false, .setActive false]

/-- The initial sync on worker startup (sync.rs:186-192). -/
def initialActions : List WorkerAction :=
  [.setActive true, .pass true, .setActive false]

/-- The whole worker trace: the initial sync followed by the loop
iterations (a channel disconnect simply ends the trace). -/
def runTrace (inputs : List LoopEvent) : List WorkerAction :=
  initialActions ++ (inputs.map iterationActions).flatten

/-- The value of the `sync_active` flag after executing a prefix of the
trace, starting from `b`. -/
def flagAfter (b : Bool) : List WorkerAction → Bool
  | [] => b
  | .setActive b' :: rest => flagAfter b' rest
  | .pass _ :: rest => flagAfter b rest

/-- A pass bracketed by the flag writes. -/
def bracket (full : Bool) : List WorkerAction :=
  [.setActive true, .pass full, .setActive false]

def passOf : LoopEvent → List Bool
  | .cmdForceSync => [true]
  | .cmdFsEvent => []
  | .timeoutPending => [true]
  | .timeoutIdle => [false]

/-- The sequence of passes (full?) a run executes: the initial full
pass, then one per triggering loop event. -/
def passKinds (inputs : List LoopEvent) : List Bool :=
  true :: (inputs.map passOf).flatten

theorem iterationActions_eq (ev : LoopEvent) :
    iterationActions ev = ((passOf ev).map bracket).flatten := by
  cases ev <;> rfl

theorem runTrace_bracket (inputs : List LoopEvent) :
    runTrace inputs = ((passKinds inputs).map bracket).flatten := by
  unfold runTrace passKinds
  simp only [List.map_cons, List.flatten_cons]
  congr 1
  induction inputs with
  | nil => rfl
  | cons e es ih =>
    simp only [List.map_cons, List.flatten_cons, List.map_append,
      List.flatten_append, iterationActions_eq, ih]

theorem flag_true_at_pass_blocks (blocks : List Bool) :
    ∀ (b : Bool) (pre suf : List WorkerAction) (full : Bool),
      (blocks.map bracket).flatten = pre ++ WorkerAction.pass full :: suf →
      flagAfter b pre = true := by
  induction blocks with
  | nil =>
    intro b pre suf full h
    simp only [List.map_nil, List.flatten_nil] at h
    cases pre with
    | nil => exact List.noConfusion h
    | cons a pre' => exact List.noConfusion h
  | cons f rest ih =>
    intro b pre suf full h
    simp only [List.map_cons, List.flatten_cons, bracket,
      List.cons_append, List.nil_append] at h
    cases pre with
    | nil => simp at h
    | cons a pre' =>
      simp only [List.cons_append, List.cons.injEq] at h
      obtain ⟨ha, h⟩ := h
      cases pre' with
      | nil =>
        subst ha
        rfl
      | cons c pre'' =>
        simp only [List.cons_append, List.cons.injEq] at h
        obtain ⟨hc, h⟩ := h
        cases pre'' with
        | nil => simp at h
        | cons d pre''' =>
          simp only [List.cons_append, List.cons.injEq] at h
          obtain ⟨hd, h⟩ := h
          subst ha
          subst hc
          subst hd
          simpa [flagAfter] using ih false pre''' suf full h

/-- C8: (1) while the shared "sync in progress" flag is set the watcher
forwards no command — every event arriving then is dropped; (2) every
worker trace is exactly a sequence of passes (the initial full pass,
then one per forced / debounced / periodic trigger), each bracketed by
setting the flag beforehand and clearing it afterwards regardless of
outcome; consequently (3) at any point of a trace at which a pass
executes, the flag reads `true`, so an event generated by that pass's
own writes and delivered during the pass is dropped and never becomes a
`FileSystemEvent` command. -/
theorem sync_flag_muzzles_watcher :
    (∀ e : WatchEvent, watcherCallback true e = none) ∧
    (∀ inputs : List LoopEvent,
      runTrace inputs = ((passKinds inputs).map bracket).flatten) ∧
    (∀ (inputs : List LoopEvent) (pre suf : List WorkerAction)
        (full : Bool) (e : WatchEvent),
      runTrace inputs = pre ++ WorkerAction.pass full :: suf →
      flagAfter false pre = true ∧
      watcherCallback (flagAfter false pre) e = none) := by
  refine ⟨fun e => rfl, runTrace_bracket, ?_⟩
  intro inputs pre suf full e h
  rw [runTrace_bracket inputs] at h
  have hflag := flag_true_at_pass_blocks (passKinds inputs) false pre suf full h
  refine ⟨hflag, ?_⟩
  rw [hflag]
  rfl

/-- A representative filesystem event a pass's own write would produce. -/
def demoEvent : WatchEvent :=
  { kind := .create, paths := [.under ["a.txt"]] }

/-- Witness for `sync_flag_muzzles_watcher` at the empty input list:
the initial pass runs with the flag set, and an event delivered at that
point is dropped. -/
theorem sync_flag_muzzles_watcher_witness :
    flagAfter false [WorkerAction.setActive true] = true ∧
    watcherCallback (flagAfter false [WorkerAction.setActive true])
      demoEvent = none :=
  sync_flag_muzzles_watcher.2.2 [] [WorkerAction.setActive true]
    [WorkerAction.setActive false] true demoEvent rfl

/-! ## C10 — uploading a directory

`SyncWorker::upload_file` returns `Ok(())` without any remote call or
store write when the path is a directory (sync.rs:941-946), while
`XynoxaClient::upload_file` rejects a directory with an error on every
path through it (api.rs:360-365, 374-379, 443-448). -/

def exceptIsOk : Except UploadError UploadMode → Bool
  | .ok _ => true
  | .error _ => false

/-- C10: invoking the worker's `upload_file` on a path that is
currently a directory is a silent no-op — the state is returned
unchanged (`Ok(())`, no remote call, no store write) — although the
remote client's own `upload_file` would reject a directory of any size
with an error (the size-limit error above 5 GiB, the explicit directory
rejection otherwise). -/
theorem directory_upload_noop :
    (∀ (st : PushState) (path fileHash : String) (mtime : Int),
      syncUploadFile st path true fileHash mtime = st) ∧
    (∀ size : Nat, exceptIsOk (clientUploadPlan true size) = false) := by
  constructor
  · intro st path fileHash mtime
    rfl
  · intro size
    unfold clientUploadPlan
    split_ifs with ha hb hc hd
    · rfl
    · rfl
    · exact absurd rfl hc
    · rfl
    · exact absurd rfl hd

end Xynoxa
